import Mathlib

/-!
Verification development for the spectrahedron sampling driver
(`R-proj/src/temp_folder/optimization_experiment.cpp`).

The repository's only source file is the driver `opti_exp`; the LMI
evaluator, the boundary oracle, the Boltzmann-HMC walker and the
preprocessor live in headers that are not part of the repository
snapshot, so those components are modelled from the specification
(each such definition says so in its doc comment).  Real numbers model
the `double` arithmetic exactly, so every numeric tolerance of the
specification is taken to be `0` in this development.
-/

open Matrix Set

/-- Modelled from the spec: an LMI is an ordered sequence of `n + 1`
symmetric `m × m` matrices `A0, A1 .. An` defining the feasible region
`{x | A0 + Σ xi • Ai ⪰ 0}`. -/
structure LMI (m n : ℕ) where
  A0 : Matrix (Fin m) (Fin m) ℝ
  A : Fin n → Matrix (Fin m) (Fin m) ℝ

variable {m n : ℕ}

/-- Modelled from the spec: the LMI evaluator `evaluate(x) = A0 + Σ xi • Ai`. -/
def evaluate (L : LMI m n) (x : Fin n → ℝ) : Matrix (Fin m) (Fin m) ℝ :=
  L.A0 + ∑ i, x i • L.A i

/-- Modelled from the spec: the directional derivative `derivative(d) = Σ di • Ai`
of the matrix pencil (independent of the evaluation point). -/
def derivative (L : LMI m n) (d : Fin n → ℝ) : Matrix (Fin m) (Fin m) ℝ :=
  ∑ i, d i • L.A i

/-- The well-formedness condition the spec checks at construction:
all stored matrices are symmetric. -/
def wellFormed (L : LMI m n) : Prop :=
  L.A0.IsHermitian ∧ ∀ i, (L.A i).IsHermitian

/-- Strict feasibility: `A(x)` is positive definite (interior point). -/
def strictlyFeasible (L : LMI m n) (x : Fin n → ℝ) : Prop := (evaluate L x).PosDef

/-- Feasibility: `A(x)` is positive semidefinite. -/
def feasible (L : LMI m n) (x : Fin n → ℝ) : Prop := Matrix.PosSemidef (evaluate L x)

/-- Modelled from the spec: position after time `t` on the Boltzmann-HMC
parabolic trajectory with initial position `p`, velocity `v` and the
constant acceleration `a` induced by the linear potential. -/
noncomputable def curvePos (p v a : Fin n → ℝ) (t : ℝ) : Fin n → ℝ :=
  p + t • v + (t ^ 2 / 2) • a

/-- The set of trajectory times `t ≥ 0` such that the whole trajectory
segment up to `t` stays inside the spectrahedron. -/
def curveFeasSet (L : LMI m n) (p v a : Fin n → ℝ) : Set ℝ :=
  {t : ℝ | 0 ≤ t ∧ ∀ u, 0 ≤ u → u ≤ t → feasible L (curvePos p v a u)}

open scoped Classical in
/-- Modelled from the spec: the boundary-oracle query for the (possibly
curved) trajectory.  It computes the largest interval `[0, t]` on which the
trajectory stays feasible and returns its right endpoint; `none` is the
"unbounded in this direction" sentinel returned when no boundary crossing
exists (the feasible interval is unbounded). -/
noncomputable def curveExit (L : LMI m n) (p v a : Fin n → ℝ) : Option ℝ :=
  if BddAbove (curveFeasSet L p v a) then some (sSup (curveFeasSet L p v a)) else none

/-- Modelled from the spec: the straight-line boundary oracle
`firstExit(p, d)`; a straight ray is the zero-acceleration trajectory. -/
noncomputable def firstExit (L : LMI m n) (p d : Fin n → ℝ) : Option ℝ :=
  curveExit L p d 0

/-- The Boltzmann-HMC boundary-oracle settings struct of the source
(`spectaedro::BoundaryOracleBoltzmannHMCSettings`): a "first step" flag and
a numeric epsilon. -/
structure BoundaryOracleBoltzmannHMCSettings where
  first : Bool
  epsilon : ℝ

/-- Modelled from the spec: one Boltzmann-HMC walk invocation
(`HMC_boltzmann_reflections`).  The walker integrates the parabolic
trajectory until either the remaining time budget `rem` is exhausted or the
boundary is hit, reflects the velocity at the boundary (the reflection rule
itself is missing code, abstracted as the `reflect` argument), and repeats
with the reduced budget, up to a reflection-budget `fuel`.  Once the walker
has consumed its first sub-interval the "first step" flag of the settings
is cleared.  It returns the emitted point together with the settings value
it hands back to the caller (the C++ settings struct is passed by mutable
reference). -/
noncomputable def HMC_boltzmann_reflections (L : LMI m n)
    (reflect : (Fin n → ℝ) → (Fin n → ℝ) → Fin n → ℝ) (a : Fin n → ℝ) :
    ℕ → (Fin n → ℝ) → (Fin n → ℝ) → ℝ → BoundaryOracleBoltzmannHMCSettings →
      (Fin n → ℝ) × BoundaryOracleBoltzmannHMCSettings
  | 0, p, _, _, s => (p, s)
  | fuel + 1, p, v, rem, s =>
    match curveExit L p v a with
    | none => (curvePos p v a rem, ⟨false, s.epsilon⟩)
    | some te =>
      if rem ≤ te then (curvePos p v a rem, ⟨false, s.epsilon⟩)
      else HMC_boltzmann_reflections L reflect a fuel (curvePos p v a te)
        (reflect (curvePos p v a te) v) (rem - te) ⟨false, s.epsilon⟩

/-- The error taxonomy of the spec (section 7). -/
inductive SpecErr where
  | Infeasible
  | UnboundedDirection
  | DimensionMismatch
deriving DecidableEq

/-- The values preprocessing delivers (spec section 4.3): an interior
point, an inner-ball radius and a diameter estimate. -/
structure PreOut (n : ℕ) where
  point : Fin n → ℝ
  innerRadius : ℝ
  diameter : ℝ

/-- Modelled from the spec: the exact diameter of the feasible body, the
value the preprocessing diameter estimate stands for. -/
noncomputable def bodyDiameter (L : LMI m n) : ℝ :=
  sSup ((fun q : (Fin n → ℝ) × (Fin n → ℝ) => dist q.1 q.2) ''
    {q | feasible L q.1 ∧ feasible L q.2})

/-- Modelled from the spec: the inscribed-ball radius at a point. -/
noncomputable def innerRadiusAt (L : LMI m n) (x : Fin n → ℝ) : ℝ :=
  sSup {r : ℝ | 0 ≤ r ∧ ∀ y, dist y x ≤ r → feasible L y}

open scoped Classical in
/-- Modelled from the spec: `preproccess_spectrahedron` (missing code;
only its call site is in the repository).  Preprocessing locates an
interior point via a feasibility search — if no strictly feasible point
exists it fails with `Infeasible` — and then sizes the body by querying
the boundary oracle along directions from that point; the oracle's
unbounded sentinel along a (nonzero) direction violates the spectrahedron
boundedness assumption and is fatal: preprocessing fails with
`UnboundedDirection`.  Otherwise it returns the interior point, the
inner-ball radius and the diameter estimate. -/
noncomputable def preproccess_spectrahedron (L : LMI m n) : Except SpecErr (PreOut n) :=
  if h : ∃ x, strictlyFeasible L x then
    if ∃ d, d ≠ 0 ∧ firstExit L h.choose d = none then .error .UnboundedDirection
    else .ok ⟨h.choose, innerRadiusAt L h.choose, bodyDiameter L⟩
  else .error .Infeasible

/-- The ambient environment of the driver: the identifiers `N2` (inner
loop bound, line 92) and `Ratios` (returned value, line 107) are declared
nowhere in the translation unit, so the driver's meaning is a function of
whatever bindings an enclosing context would give them. -/
structure DriverEnv (n : ℕ) where
  N2 : ℕ
  Ratios : List (Fin n → ℝ)

/-- One entry per Boltzmann-HMC walk invocation performed by the driver:
the settings value at the start of the invocation, the settings value
handed back at its end, and the total-time argument `T` passed to it. -/
structure TraceEntry where
  atStart : BoundaryOracleBoltzmannHMCSettings
  atEnd : BoundaryOracleBoltzmannHMCSettings
  timeArg : ℝ

/-- The mutable locals of the driver's sampling loop: the current point
`p`, the shared settings struct `settings2`, a counter into the random
stream, the accumulated `randPoints` list and the invocation trace. -/
structure DriverState (n : ℕ) where
  p : Fin n → ℝ
  settings : BoundaryOracleBoltzmannHMCSettings
  rngIdx : ℕ
  samples : List (Fin n → ℝ)
  trace : List TraceEntry

/-- The walker-side inputs of the driver that come from missing code: the
generated LMI, the reflection rule, the acceleration induced by the random
potential direction `c`, the reflection budget, and the stream of initial
velocities the walker draws. -/
structure WalkerArgs (m n : ℕ) where
  L : LMI m n
  reflect : (Fin n → ℝ) → (Fin n → ℝ) → Fin n → ℝ
  accel : Fin n → ℝ
  fuel : ℕ
  vels : ℕ → Fin n → ℝ

/-- One `HMC_boltzmann_reflections(SP, p, diam_spec, var, c, T, settings2)`
call of the driver (line 94): the walker advances `p` and the shared
settings struct, and the invocation is recorded in the trace. -/
noncomputable def doInvocation (W : WalkerArgs m n) (T : ℝ) (st : DriverState n) :
    DriverState n :=
  let r := HMC_boltzmann_reflections W.L W.reflect W.accel W.fuel st.p
    (W.vels st.rngIdx) T st.settings
  ⟨r.1, r.2, st.rngIdx + 1, st.samples, st.trace ++ [⟨st.settings, r.2, T⟩]⟩

/-- The driver's inner `i`-loop body (lines 92-97): `walk_length` walker
invocations followed by `randPoints.push_back(p)`. -/
noncomputable def sampleStep (W : WalkerArgs m n) (T : ℝ) (walkLength : ℕ)
    (st : DriverState n) : DriverState n :=
  let st2 := (doInvocation W T)^[walkLength] st
  ⟨st2.p, st2.settings, st2.rngIdx, st2.samples ++ [st2.p], st2.trace⟩

/-- The driver state entering the sampling loop: `p = Point(n)` (the
origin, line 75) and `settings2` with `first = true`, `epsilon = 0.0001`
(lines 77-79). -/
noncomputable def initState (n : ℕ) : DriverState n :=
  ⟨fun _ => 0, ⟨true, 1 / 10000⟩, 0, [], []⟩

/-- The driver's sampling loops (lines 88-102): `T = 2.0 * var.diameter`
with the diameter taken from the preprocessing output, then five outer
iterations of `N2` sample steps each. -/
noncomputable def driverRun (W : WalkerArgs m n) (N2 walkLength : ℕ) (pre : PreOut n) :
    DriverState n :=
  ((sampleStep W (2 * pre.diameter) walkLength)^[N2])^[5] (initState n)

/-- The driver `opti_exp` (lines 30-108).  Its declared parameters `nn`
and `mm` size the generated problem (reflected here by the type-level
dimensions), `N`, `M` and `walk_type` are never read, `walk_length` bounds
the innermost loop.  Preprocessing runs first (abstracted as `preFn`, with
error propagation); the sampling loops then accumulate `randPoints`; after
sampling, `hit_and_run_Boltzmann_spec` (missing code, abstracted as `har`)
is applied to `p` and its result discarded; finally the function returns
the ambient `Ratios` binding — not the accumulated sample list. -/
noncomputable def opti_exp (env : DriverEnv n) (W : WalkerArgs m n)
    (preFn : LMI m n → Except SpecErr (PreOut n))
    (har : (Fin n → ℝ) → Fin n → ℝ)
    (nn mm N M walkLength walkType : ℕ) : Except SpecErr (List (Fin n → ℝ)) :=
  match preFn W.L with
  | .error e => .error e
  | .ok pre =>
    let st := driverRun W env.N2 walkLength pre
    let _pAfter := har st.p
    .ok env.Ratios

/-- Model of lines 62-66: the local `diam_spec` is declared without an
initializer and never assigned before line 67 (`none` records "no program
assignment has happened"). -/
def diam_spec_init : Option ℝ := none

/-- Model of lines 62-65: `InnerB.second` is never assigned by the program
— the `SP.ComputeInnerBall` call that would set it is commented out. -/
def innerB_second_init : Option ℝ := none

/-- The two fields of the walk-configuration value `var` relevant to the
sizing of the walks: the diameter estimate and the inner-ball radius. -/
structure VarsInit where
  diameter : Option ℝ
  innerBallRadius : Option ℝ

/-- Model of line 67: `var` is constructed from `diam_spec` and
`InnerB.second` as they stand before preprocessing. -/
def varsInit : VarsInit :=
  ⟨diam_spec_init, innerB_second_init⟩

/-- Model of line 88: `T = 2.0 * var.diameter`, as a function of the value
held by `var.diameter` at that line (after preprocessing has had the
opportunity to overwrite it by reference). -/
def driverT (varDiameter : Option ℝ) : Option ℝ :=
  varDiameter.map (fun x => 2 * x)

/-- The settings struct threads through an invocation trace: the first
invocation starts with the settings value `s0` the driver constructed, each
later invocation starts with exactly the settings value the previous
invocation ended with (one shared mutable struct, no per-invocation reset),
and the driver's settings variable ends as `sF`. -/
inductive SettingsChained :
    BoundaryOracleBoltzmannHMCSettings → List TraceEntry →
      BoundaryOracleBoltzmannHMCSettings → Prop
  | nil (s0 : BoundaryOracleBoltzmannHMCSettings) : SettingsChained s0 [] s0
  | cons (s0 : BoundaryOracleBoltzmannHMCSettings) (e : TraceEntry)
      (l : List TraceEntry) (sF : BoundaryOracleBoltzmannHMCSettings)
      (h1 : e.atStart = s0) (h2 : SettingsChained e.atEnd l sF) :
      SettingsChained s0 (e :: l) sF

/-- Concrete instance for evaluation: the one-dimensional LMI
`A(x) = [1 - x]` (interval `x ≤ 1`), interior at the origin, boundary at
`x = 1`. -/
noncomputable def exampleLMI : LMI 1 1 :=
  ⟨1, fun _ => Matrix.diagonal fun _ => -1⟩

/-- Concrete instance for evaluation: the degenerate one-dimensional LMI
`A(x) = [1]` whose single coordinate matrix is the zero matrix, so the
body is unbounded along that axis. -/
noncomputable def zeroDirLMI : LMI 1 1 :=
  ⟨1, fun _ => 0⟩

/-- Concrete instance for evaluation: the infeasible LMI `A(x) = [-1]`. -/
noncomputable def infeasibleLMI : LMI 1 1 :=
  ⟨Matrix.diagonal fun _ => -1, fun _ => 0⟩

/-- Concrete walker inputs for evaluation: the unbounded one-dimensional
body, identity reflection rule, zero acceleration, reflection budget `1`,
zero initial velocities. -/
noncomputable def exampleWalkerArgs : WalkerArgs 1 1 :=
  ⟨zeroDirLMI, fun _ v => v, fun _ => 0, 1, fun _ _ => 0⟩

/-- Concrete walker inputs over the infeasible LMI. -/
noncomputable def infeasibleWalkerArgs : WalkerArgs 1 1 :=
  ⟨infeasibleLMI, fun _ v => v, fun _ => 0, 1, fun _ _ => 0⟩

/-- Concrete preprocessing output for evaluation: origin, unit radius and
unit diameter. -/
noncomputable def examplePreOut : PreOut 1 :=
  ⟨fun _ => 0, 1, 1⟩

/-- Concrete ambient environment for evaluation: `N2 = 1`, empty `Ratios`. -/
def exampleEnv : DriverEnv 1 :=
  ⟨1, []⟩

/-! ## Basic lemmas about the trajectory and the oracle -/

lemma curvePos_zero (p v a : Fin n → ℝ) : curvePos p v a 0 = p := by
  simp [curvePos]

lemma curveExit_nonneg {L : LMI m n} {p v a : Fin n → ℝ} {te : ℝ}
    (h : curveExit L p v a = some te) : 0 ≤ te := by
  unfold curveExit at h
  split at h
  · rcases Set.eq_empty_or_nonempty (curveFeasSet L p v a) with he | hne
    · rw [Option.some_inj] at h
      rw [← h, he, Real.sSup_empty]
    · obtain ⟨x, hx⟩ := hne
      rw [Option.some_inj] at h
      exact le_trans hx.1 (h ▸ le_csSup (by assumption) hx)
  · exact absurd h (by simp)

lemma curvePos_line (p d : Fin n → ℝ) (s : ℝ) : curvePos p d 0 s = p + s • d := by
  simp [curvePos]

lemma evaluate_add_point (L : LMI m n) (x w : Fin n → ℝ) :
    evaluate L (x + w) = evaluate L x + derivative L w := by
  simp only [evaluate, derivative, Pi.add_apply, add_smul, Finset.sum_add_distrib, add_assoc]

lemma derivative_smul_dir (L : LMI m n) (c : ℝ) (w : Fin n → ℝ) :
    derivative L (c • w) = c • derivative L w := by
  simp [derivative, Finset.smul_sum, Pi.smul_apply, smul_smul]

lemma derivative_add_dir (L : LMI m n) (w z : Fin n → ℝ) :
    derivative L (w + z) = derivative L w + derivative L z := by
  simp [derivative, Pi.add_apply, add_smul, Finset.sum_add_distrib]

lemma evaluate_line (L : LMI m n) (p d : Fin n → ℝ) (s : ℝ) :
    evaluate L (p + s • d) = evaluate L p + s • derivative L d := by
  rw [evaluate_add_point, derivative_smul_dir]

lemma evaluate_curvePos (L : LMI m n) (p v a : Fin n → ℝ) (t : ℝ) :
    evaluate L (curvePos p v a t) =
      evaluate L p + t • derivative L v + (t ^ 2 / 2) • derivative L a := by
  rw [curvePos, evaluate_add_point, evaluate_add_point, derivative_smul_dir,
    derivative_smul_dir]

lemma isHermitian_smul_real {A : Matrix (Fin m) (Fin m) ℝ} (h : A.IsHermitian) (c : ℝ) :
    (c • A).IsHermitian := by
  have : (c • A)ᴴ = c • Aᴴ := by
    rw [Matrix.conjTranspose_smul]
    simp
  rw [Matrix.IsHermitian, this, h]

lemma evaluate_isHermitian {L : LMI m n} (hL : wellFormed L) (x : Fin n → ℝ) :
    (evaluate L x).IsHermitian := by
  refine Matrix.IsHermitian.add hL.1 ?_
  have : (∑ i, x i • L.A i)ᴴ = ∑ i, (x i • L.A i)ᴴ := Matrix.conjTranspose_sum _ _
  rw [Matrix.IsHermitian, this]
  refine Finset.sum_congr rfl fun i _ => ?_
  exact isHermitian_smul_real (hL.2 i) (x i)

lemma derivative_isHermitian {L : LMI m n} (hL : wellFormed L) (d : Fin n → ℝ) :
    (derivative L d).IsHermitian := by
  have : (∑ i, d i • L.A i)ᴴ = ∑ i, (d i • L.A i)ᴴ := Matrix.conjTranspose_sum _ _
  rw [derivative, Matrix.IsHermitian, this]
  refine Finset.sum_congr rfl fun i _ => ?_
  exact isHermitian_smul_real (hL.2 i) (d i)

/-! Real quadratic-form helpers: over `ℝ` the `star` in the definition of
positive (semi)definiteness is the identity. -/

lemma psd_quad {M : Matrix (Fin m) (Fin m) ℝ} (h : M.PosSemidef) (x : Fin m → ℝ) :
    0 ≤ x ⬝ᵥ M *ᵥ x := by
  simpa using h.2 x

lemma posDef_quad {M : Matrix (Fin m) (Fin m) ℝ} (h : M.PosDef) {x : Fin m → ℝ}
    (hx : x ≠ 0) : 0 < x ⬝ᵥ M *ᵥ x := by
  simpa using h.2 x hx

lemma posSemidef_of_quad {M : Matrix (Fin m) (Fin m) ℝ} (hH : M.IsHermitian)
    (h : ∀ x, 0 ≤ x ⬝ᵥ M *ᵥ x) : M.PosSemidef :=
  ⟨hH, fun x => by simpa using h x⟩

lemma posDef_of_quad {M : Matrix (Fin m) (Fin m) ℝ} (hH : M.IsHermitian)
    (h : ∀ x, x ≠ 0 → 0 < x ⬝ᵥ M *ᵥ x) : M.PosDef :=
  ⟨hH, fun x hx => by simpa using h x hx⟩

lemma quad_add_smul (M D : Matrix (Fin m) (Fin m) ℝ) (s : ℝ) (x : Fin m → ℝ) :
    x ⬝ᵥ (M + s • D) *ᵥ x = x ⬝ᵥ M *ᵥ x + s * (x ⬝ᵥ D *ᵥ x) := by
  rw [Matrix.add_mulVec, Matrix.smul_mulVec_assoc, dotProduct_add, dotProduct_smul,
    smul_eq_mul]

lemma quad_smul_vec (M : Matrix (Fin m) (Fin m) ℝ) (c : ℝ) (x : Fin m → ℝ) :
    (c • x) ⬝ᵥ M *ᵥ (c • x) = c ^ 2 * (x ⬝ᵥ M *ᵥ x) := by
  rw [Matrix.mulVec_smul, dotProduct_smul, smul_dotProduct, smul_eq_mul, smul_eq_mul]
  ring

lemma quad_curve_eq (L : LMI m n) (p v a x : _) (s : ℝ) :
    x ⬝ᵥ (evaluate L (curvePos p v a s)) *ᵥ x =
      x ⬝ᵥ (evaluate L p) *ᵥ x + s * (x ⬝ᵥ (derivative L v) *ᵥ x) +
        (s ^ 2 / 2) * (x ⬝ᵥ (derivative L a) *ᵥ x) := by
  rw [evaluate_curvePos, quad_add_smul, quad_add_smul]

lemma continuous_quad_curve (L : LMI m n) (p v a : Fin n → ℝ) (x : Fin m → ℝ) :
    Continuous fun s : ℝ => x ⬝ᵥ (evaluate L (curvePos p v a s)) *ᵥ x := by
  have h : (fun s : ℝ => x ⬝ᵥ (evaluate L (curvePos p v a s)) *ᵥ x) =
      fun s : ℝ => x ⬝ᵥ (evaluate L p) *ᵥ x + s * (x ⬝ᵥ (derivative L v) *ᵥ x) +
        (s ^ 2 / 2) * (x ⬝ᵥ (derivative L a) *ᵥ x) :=
    funext fun s => quad_curve_eq L p v a x s
  rw [h]
  exact (continuous_const.add (continuous_id.mul continuous_const)).add
    (((continuous_pow 2).div_const 2).mul continuous_const)

/-- A continuous function that is nonnegative on `[0, t)` (and at `0`)
is nonnegative at `t` as well. -/
lemma nonneg_at_endpoint {f : ℝ → ℝ} (hf : Continuous f) {t : ℝ} (ht : 0 ≤ t)
    (h0 : 0 ≤ f 0) (h : ∀ s, 0 ≤ s → s < t → 0 ≤ f s) : 0 ≤ f t := by
  rcases eq_or_lt_of_le ht with heq | htpos
  · rw [← heq]
    exact h0
  · have hcl : t ∈ closure (Ico (0 : ℝ) t) := by
      rw [closure_Ico htpos.ne]
      exact ⟨ht, le_refl t⟩
    have hne : (nhdsWithin t (Ico (0 : ℝ) t)).NeBot :=
      mem_closure_iff_nhdsWithin_neBot.mp hcl
    refine ge_of_tendsto (hf.continuousWithinAt :
      Filter.Tendsto f (nhdsWithin t (Ico (0 : ℝ) t)) (nhds (f t))) ?_
    filter_upwards [self_mem_nhdsWithin] with s hs
    exact h s hs.1 hs.2

/-- Closure of feasibility along the trajectory: if the trajectory is
feasible on `[0, t)` then it is feasible at `t`. -/
lemma feasible_closure {L : LMI m n} (hL : wellFormed L) {p v a : Fin n → ℝ} {t : ℝ}
    (ht : 0 ≤ t) (h0 : feasible L p)
    (h : ∀ s, 0 ≤ s → s < t → feasible L (curvePos p v a s)) :
    feasible L (curvePos p v a t) := by
  refine posSemidef_of_quad (evaluate_isHermitian hL _) fun x => ?_
  refine nonneg_at_endpoint (continuous_quad_curve L p v a x) ht ?_ ?_
  · rw [curvePos_zero]
    exact psd_quad h0 x
  · intro s hs hst
    exact psd_quad (h s hs hst) x

/-- A positive definite real matrix bounds its quadratic form below by a
positive multiple of the squared norm (the minimal eigenvalue, obtained
here by compactness of the unit sphere). -/
lemma posDef_quad_lower_bound {M : Matrix (Fin m) (Fin m) ℝ} (hM : M.PosDef) :
    ∃ c > 0, ∀ x : Fin m → ℝ, c * ‖x‖ ^ 2 ≤ x ⬝ᵥ M *ᵥ x := by
  rcases isEmpty_or_nonempty (Fin m) with hm | hm
  · refine ⟨1, one_pos, fun x => ?_⟩
    have hx : x = 0 := funext fun i => (hm.false i).elim
    simp [hx]
  · set f : (Fin m → ℝ) → ℝ := fun x => x ⬝ᵥ M *ᵥ x with hfdef
    have hf : Continuous f := by
      have h : f = fun x : Fin m → ℝ => ∑ i, x i * ∑ j, M i j * x j := by
        funext x
        simp [hfdef, dotProduct, Matrix.mulVec]
      rw [h]
      exact continuous_finset_sum _ fun i _ => (continuous_apply i).mul
        (continuous_finset_sum _ fun j _ => continuous_const.mul (continuous_apply j))
    have hsne : (Metric.sphere (0 : Fin m → ℝ) 1).Nonempty := by
      refine ⟨fun _ => 1, ?_⟩
      rw [mem_sphere_zero_iff_norm, pi_norm_const]
      norm_num
    obtain ⟨x0, hx0mem, hx0min⟩ :=
      (isCompact_sphere (0 : Fin m → ℝ) 1).exists_isMinOn hsne hf.continuousOn
    have hx0norm : ‖x0‖ = 1 := mem_sphere_zero_iff_norm.mp hx0mem
    have hx0ne : x0 ≠ 0 := by
      intro h
      rw [h, norm_zero] at hx0norm
      exact one_ne_zero hx0norm.symm
    refine ⟨f x0, posDef_quad hM hx0ne, fun x => ?_⟩
    rcases eq_or_ne x 0 with rfl | hx
    · simp [hfdef]
    · have hnx : ‖x‖ ≠ 0 := norm_ne_zero_iff.mpr hx
      have hu : (‖x‖⁻¹ • x) ∈ Metric.sphere (0 : Fin m → ℝ) 1 := by
        rw [mem_sphere_zero_iff_norm, norm_smul, norm_inv, norm_norm,
          inv_mul_cancel₀ hnx]
      have hmin : f x0 ≤ f (‖x‖⁻¹ • x) := hx0min hu
      have hfu : f (‖x‖⁻¹ • x) = ‖x‖⁻¹ ^ 2 * f x := quad_smul_vec M _ x
      rw [hfu] at hmin
      have h2 : (0 : ℝ) < ‖x‖ ^ 2 := by positivity
      have h3 : f x0 * ‖x‖ ^ 2 ≤ ‖x‖⁻¹ ^ 2 * f x * ‖x‖ ^ 2 :=
        mul_le_mul_of_nonneg_right hmin h2.le
      calc f x0 * ‖x‖ ^ 2 ≤ ‖x‖⁻¹ ^ 2 * f x * ‖x‖ ^ 2 := h3
        _ = f x := by field_simp

/-- Elementary entrywise bound on a real quadratic form: the sup norm of
`x` controls `xᵀ D x`. -/
lemma quad_abs_le (D : Matrix (Fin m) (Fin m) ℝ) :
    ∃ K ≥ 0, ∀ x : Fin m → ℝ, |x ⬝ᵥ D *ᵥ x| ≤ K * ‖x‖ ^ 2 := by
  refine ⟨∑ i, ∑ j, |D i j|, Finset.sum_nonneg fun i _ =>
    Finset.sum_nonneg fun j _ => abs_nonneg _, fun x => ?_⟩
  have hxi : ∀ i, |x i| ≤ ‖x‖ := fun i => by
    have := norm_le_pi_norm x i
    simpa using this
  have hxnn : (0 : ℝ) ≤ ‖x‖ := norm_nonneg x
  have hrow : ∀ i, |(D *ᵥ x) i| ≤ (∑ j, |D i j|) * ‖x‖ := by
    intro i
    have h1 : |(D *ᵥ x) i| ≤ ∑ j, |D i j * x j| := by
      simpa [Matrix.mulVec, dotProduct] using
        Finset.abs_sum_le_sum_abs (fun j => D i j * x j) Finset.univ
    have h2 : ∑ j, |D i j * x j| ≤ ∑ j, |D i j| * ‖x‖ := by
      refine Finset.sum_le_sum fun j _ => ?_
      rw [abs_mul]
      exact mul_le_mul_of_nonneg_left (hxi j) (abs_nonneg _)
    calc |(D *ᵥ x) i| ≤ ∑ j, |D i j| * ‖x‖ := h1.trans h2
      _ = (∑ j, |D i j|) * ‖x‖ := by rw [Finset.sum_mul]
  have h1 : |x ⬝ᵥ D *ᵥ x| ≤ ∑ i, |x i * (D *ᵥ x) i| := by
    simpa [dotProduct] using
      Finset.abs_sum_le_sum_abs (fun i => x i * (D *ᵥ x) i) Finset.univ
  have h2 : ∑ i, |x i * (D *ᵥ x) i| ≤ ∑ i, ‖x‖ * ((∑ j, |D i j|) * ‖x‖) := by
    refine Finset.sum_le_sum fun i _ => ?_
    rw [abs_mul]
    exact mul_le_mul (hxi i) (hrow i) (abs_nonneg _) hxnn
  calc |x ⬝ᵥ D *ᵥ x| ≤ ∑ i, ‖x‖ * ((∑ j, |D i j|) * ‖x‖) := h1.trans h2
    _ = (∑ i, ∑ j, |D i j|) * ‖x‖ ^ 2 := by
        have h3 : ∀ i : Fin m, ‖x‖ * ((∑ j, |D i j|) * ‖x‖) = (∑ j, |D i j|) * ‖x‖ ^ 2 :=
          fun i => by ring
        rw [Finset.sum_congr rfl fun i _ => h3 i, ← Finset.sum_mul]

/-- Openness of positive definiteness along an affine matrix pencil: a
positive definite matrix stays positive definite under small symmetric
perturbations. -/
lemma posDef_extend {M D : Matrix (Fin m) (Fin m) ℝ} (hM : M.PosDef)
    (hD : D.IsHermitian) :
    ∃ δ > 0, ∀ s : ℝ, |s| ≤ δ → (M + s • D).PosDef := by
  obtain ⟨c, hc, hcq⟩ := posDef_quad_lower_bound hM
  obtain ⟨K, hK, hKq⟩ := quad_abs_le D
  refine ⟨c / (2 * (K + 1)), by positivity, fun s hs => ?_⟩
  refine posDef_of_quad (hM.1.add (isHermitian_smul_real hD s)) fun x hx => ?_
  rw [quad_add_smul]
  have hxpos : (0 : ℝ) < ‖x‖ ^ 2 := by
    have : ‖x‖ ≠ 0 := norm_ne_zero_iff.mpr hx
    positivity
  have h1 : c * ‖x‖ ^ 2 ≤ x ⬝ᵥ M *ᵥ x := hcq x
  have h2 : |s * (x ⬝ᵥ D *ᵥ x)| ≤ (c / 2) * ‖x‖ ^ 2 := by
    rw [abs_mul]
    calc |s| * |x ⬝ᵥ D *ᵥ x| ≤ (c / (2 * (K + 1))) * (K * ‖x‖ ^ 2) :=
          mul_le_mul hs (hKq x) (abs_nonneg _) (by positivity)
      _ ≤ (c / 2) * ‖x‖ ^ 2 := by
          rw [div_mul_eq_mul_div, mul_comm, div_mul_eq_mul_div]
          rw [div_le_iff₀ (by positivity : (0 : ℝ) < 2 * (K + 1))]
          ring_nf
          nlinarith [hxpos.le, hc.le, hK]
  have h3 : -((c / 2) * ‖x‖ ^ 2) ≤ s * (x ⬝ᵥ D *ᵥ x) := (abs_le.mp h2).1
  nlinarith [hxpos, hc]

/-- A positive semidefinite real matrix with nonzero determinant is
positive definite. -/
lemma posDef_of_posSemidef_det_ne_zero {M : Matrix (Fin m) (Fin m) ℝ}
    (hM : M.PosSemidef) (hdet : M.det ≠ 0) : M.PosDef := by
  refine posDef_of_quad hM.1 fun x hx => ?_
  have h0 : 0 ≤ x ⬝ᵥ M *ᵥ x := psd_quad hM x
  rcases eq_or_lt_of_le h0 with heq | hlt
  · exfalso
    have hstar : star x ⬝ᵥ M *ᵥ x = 0 := by
      simpa using heq.symm
    have hMx : M *ᵥ x = 0 := (hM.dotProduct_mulVec_zero_iff x).mp hstar
    have hunit : IsUnit M.det := isUnit_iff_ne_zero.mpr hdet
    have h1 : M⁻¹ *ᵥ (M *ᵥ x) = x := by
      rw [Matrix.mulVec_mulVec, Matrix.nonsing_inv_mul M hunit, Matrix.one_mulVec]
    rw [hMx, Matrix.mulVec_zero] at h1
    exact hx h1.symm
  · exact hlt

lemma curveExit_some_elim {L : LMI m n} {p v a : Fin n → ℝ} {te : ℝ}
    (h : curveExit L p v a = some te) :
    BddAbove (curveFeasSet L p v a) ∧ te = sSup (curveFeasSet L p v a) := by
  unfold curveExit at h
  split at h
  · exact ⟨by assumption, (Option.some_inj.mp h).symm⟩
  · exact absurd h (by simp)

lemma curveExit_none_iff {L : LMI m n} {p v a : Fin n → ℝ} :
    curveExit L p v a = none ↔ ¬ BddAbove (curveFeasSet L p v a) := by
  unfold curveExit
  split <;> simp_all

lemma zero_mem_curveFeasSet {L : LMI m n} {p v a : Fin n → ℝ} (h0 : feasible L p) :
    (0 : ℝ) ∈ curveFeasSet L p v a := by
  refine ⟨le_refl 0, fun u hu hu0 => ?_⟩
  have : u = 0 := le_antisymm hu0 hu
  rw [this, curvePos_zero]
  exact h0

lemma feasible_of_lt_sSup {L : LMI m n} {p v a : Fin n → ℝ}
    (hne : (curveFeasSet L p v a).Nonempty) {s : ℝ} (hs : 0 ≤ s)
    (hlt : s < sSup (curveFeasSet L p v a)) : feasible L (curvePos p v a s) := by
  obtain ⟨τ, hτS, hsτ⟩ := exists_lt_of_lt_csSup hne hlt
  exact hτS.2 s hs hsτ.le

/-- The oracle's feasibility guarantee: the trajectory is feasible on the
whole interval `[0, te]` up to the returned exit time. -/
lemma curveExit_feasible_on {L : LMI m n} {p v a : Fin n → ℝ} {te : ℝ}
    (hL : wellFormed L) (h0 : feasible L p) (hE : curveExit L p v a = some te) :
    ∀ s, 0 ≤ s → s ≤ te → feasible L (curvePos p v a s) := by
  obtain ⟨hBdd, hte⟩ := curveExit_some_elim hE
  have hne : (curveFeasSet L p v a).Nonempty := ⟨0, zero_mem_curveFeasSet h0⟩
  intro s hs hste
  rcases lt_or_eq_of_le hste with hlt | heq
  · exact feasible_of_lt_sSup hne hs (hte ▸ hlt)
  · subst heq
    refine feasible_closure hL (curveExit_nonneg hE) h0 fun u hu hut => ?_
    exact feasible_of_lt_sSup hne hu (hte ▸ hut)

lemma strictFeas_feasible {L : LMI m n} {x : Fin n → ℝ} (h : strictlyFeasible L x) :
    feasible L x :=
  Matrix.PosDef.posSemidef h

/-- Along an unbounded ray from a strictly feasible point the matrix stays
positive definite (an affine quadratic form that is positive at `0`,
vanishes somewhere and is nonnegative ever after would have to have
nonnegative slope, contradiction). -/
lemma posDef_on_line_of_unbounded {L : LMI m n} {p d : Fin n → ℝ}
    (hp : strictlyFeasible L p) (hUnb : ¬ BddAbove (curveFeasSet L p d 0)) :
    ∀ s : ℝ, 0 ≤ s → (evaluate L (p + s • d)).PosDef := by
  have hfeas : ∀ u : ℝ, 0 ≤ u → feasible L (p + u • d) := by
    intro u hu
    obtain ⟨τ, hτS, hτu⟩ := not_bddAbove_iff.mp hUnb u
    have h1 := hτS.2 u hu hτu.le
    rwa [curvePos_line] at h1
  intro s hs
  refine posDef_of_quad (hfeas s hs).1 fun x hx => ?_
  have hline : ∀ u : ℝ, x ⬝ᵥ (evaluate L (p + u • d)) *ᵥ x =
      x ⬝ᵥ (evaluate L p) *ᵥ x + u * (x ⬝ᵥ (derivative L d) *ᵥ x) := fun u => by
    rw [evaluate_line, quad_add_smul]
  have h0 : 0 < x ⬝ᵥ (evaluate L p) *ᵥ x := posDef_quad hp hx
  have hsq := psd_quad (hfeas s hs) x
  rcases lt_or_eq_of_le hsq with hpos | heq0
  · exact hpos
  · exfalso
    have hA : x ⬝ᵥ (evaluate L p) *ᵥ x + s * (x ⬝ᵥ (derivative L d) *ᵥ x) = 0 := by
      rw [← hline s, ← heq0]
    have hB := psd_quad (hfeas (s + 1) (by linarith)) x
    rw [hline (s + 1)] at hB
    have hg : 0 ≤ x ⬝ᵥ (derivative L d) *ᵥ x := by nlinarith
    have hsg : 0 ≤ s * (x ⬝ᵥ (derivative L d) *ᵥ x) := mul_nonneg hs hg
    linarith

lemma firstExit_none_implies_no_root {L : LMI m n} {p d : Fin n → ℝ}
    (hp : strictlyFeasible L p) (hE : firstExit L p d = none) :
    ¬ ∃ s : ℝ, 0 < s ∧ (evaluate L p + s • derivative L d).det = 0 := by
  rintro ⟨s, hs, hdet⟩
  have hUnb := curveExit_none_iff.mp hE
  have hPD := posDef_on_line_of_unbounded hp hUnb s hs.le
  rw [evaluate_line] at hPD
  exact (Matrix.PosDef.det_pos hPD).ne' hdet

lemma firstExit_none_of_no_root {L : LMI m n} {p d : Fin n → ℝ}
    (hL : wellFormed L) (hp : strictlyFeasible L p)
    (hroot : ¬ ∃ s : ℝ, 0 < s ∧ (evaluate L p + s • derivative L d).det = 0) :
    firstExit L p d = none := by
  have hPD : ∀ s : ℝ, 0 ≤ s → (evaluate L (p + s • d)).PosDef := by
    by_contra hB
    push_neg at hB
    obtain ⟨b, hb0, hbPD⟩ := hB
    set B : Set ℝ := {s | 0 ≤ s ∧ ¬ (evaluate L (p + s • d)).PosDef} with hBdef
    have hBne : B.Nonempty := ⟨b, hb0, hbPD⟩
    have hBbd : BddBelow B := ⟨0, fun s hsB => hsB.1⟩
    set σ := sInf B with hσdef
    have hσ0 : 0 ≤ σ := le_csInf hBne fun s hsB => hsB.1
    have hbelow : ∀ u, 0 ≤ u → u < σ → (evaluate L (p + u • d)).PosDef := by
      intro u hu huσ
      by_contra hnPD
      have h1 : σ ≤ u := csInf_le hBbd ⟨hu, hnPD⟩
      linarith
    have hPSDσ : feasible L (p + σ • d) := by
      have h1 : feasible L (curvePos p d 0 σ) := by
        refine feasible_closure hL hσ0 (strictFeas_feasible hp) fun u hu huσ => ?_
        rw [curvePos_line]
        exact (hbelow u hu huσ).posSemidef
      rwa [curvePos_line] at h1
    have hPDσ : (evaluate L (p + σ • d)).PosDef := by
      rcases eq_or_lt_of_le hσ0 with heq | hσpos
      · rw [← heq]
        simpa using hp
      · refine posDef_of_posSemidef_det_ne_zero hPSDσ fun hdet => ?_
        exact hroot ⟨σ, hσpos, by rwa [← evaluate_line]⟩
    have hPDσ' : (evaluate L p + σ • derivative L d).PosDef := by
      rwa [evaluate_line] at hPDσ
    obtain ⟨δ, hδ, hext⟩ := posDef_extend hPDσ' (derivative_isHermitian hL d)
    have hlb : ∀ s ∈ B, σ + δ ≤ s := by
      intro s hsB
      by_contra hlt
      push_neg at hlt
      have hσs : σ ≤ s := csInf_le hBbd hsB
      have h1 : |s - σ| ≤ δ := by
        rw [abs_of_nonneg (by linarith)]
        linarith
      have h2 := hext (s - σ) h1
      have h3 : evaluate L p + σ • derivative L d + (s - σ) • derivative L d =
          evaluate L p + s • derivative L d := by
        rw [add_assoc, ← add_smul]
        have h4 : σ + (s - σ) = s := by ring
        rw [h4]
      rw [h3, ← evaluate_line] at h2
      exact hsB.2 h2
    have h5 : σ + δ ≤ σ := le_csInf hBne hlb
    linarith
  rw [firstExit, curveExit_none_iff]
  rintro ⟨ub, hub⟩
  have hmem : max ub 0 + 1 ∈ curveFeasSet L p d 0 := by
    have h0 : (0 : ℝ) ≤ max ub 0 := le_max_right _ _
    refine ⟨by linarith, fun u hu hus => ?_⟩
    rw [curvePos_line]
    exact (hPD u hu).posSemidef
  have h6 := hub hmem
  have h7 : ub ≤ max ub 0 := le_max_left _ _
  simp only [upperBounds, Set.mem_setOf_eq] at h6
  linarith

/-- Claim C1: for a strictly feasible point `p` and a direction `d`, when
the oracle returns a finite exit value `t`, then `t ≥ 0`, `A(p + s·d)` is
positive semidefinite for every `0 ≤ s ≤ t` (the "⪰ -tolerance" guarantee
at exact arithmetic), and `A(p + t·d)` is singular. -/
theorem firstExit_boundary_contract {L : LMI m n} {p d : Fin n → ℝ} {t : ℝ}
    (hL : wellFormed L) (hp : strictlyFeasible L p)
    (hE : firstExit L p d = some t) :
    0 ≤ t ∧ (∀ s, 0 ≤ s → s ≤ t → feasible L (p + s • d)) ∧
      (evaluate L (p + t • d)).det = 0 := by
  have hE' : curveExit L p d 0 = some t := hE
  have ht : 0 ≤ t := curveExit_nonneg hE'
  have hfeas : ∀ s, 0 ≤ s → s ≤ t → feasible L (p + s • d) := by
    intro s hs hst
    have h1 := curveExit_feasible_on hL (strictFeas_feasible hp) hE' s hs hst
    rwa [curvePos_line] at h1
  refine ⟨ht, hfeas, ?_⟩
  by_contra hdet
  have hPSD : (evaluate L (p + t • d)).PosSemidef := hfeas t ht (le_refl t)
  have hPD : (evaluate L (p + t • d)).PosDef :=
    posDef_of_posSemidef_det_ne_zero hPSD hdet
  have hPD' : (evaluate L p + t • derivative L d).PosDef := by
    rwa [evaluate_line] at hPD
  obtain ⟨δ, hδ, hext⟩ := posDef_extend hPD' (derivative_isHermitian hL d)
  obtain ⟨hBdd, htSup⟩ := curveExit_some_elim hE'
  have hmem : t + δ ∈ curveFeasSet L p d 0 := by
    refine ⟨by linarith, fun u hu hut => ?_⟩
    rw [curvePos_line]
    rcases le_or_lt u t with hut' | htu
    · exact hfeas u hu hut'
    · have h1 : |u - t| ≤ δ := by
        rw [abs_of_nonneg (by linarith)]
        linarith
      have h2 := hext (u - t) h1
      have h3 : evaluate L p + t • derivative L d + (u - t) • derivative L d =
          evaluate L p + u • derivative L d := by
        rw [add_assoc, ← add_smul]
        have h4 : t + (u - t) = u := by ring
        rw [h4]
      rw [h3, ← evaluate_line] at h2
      exact h2.posSemidef
  have h5 := le_csSup hBdd hmem
  rw [← htSup] at h5
  linarith

lemma quad_smul_add_smul (M N : Matrix (Fin m) (Fin m) ℝ) (a b : ℝ) (x : Fin m → ℝ) :
    x ⬝ᵥ (a • M + b • N) *ᵥ x =
      a * (x ⬝ᵥ M *ᵥ x) + b * (x ⬝ᵥ N *ᵥ x) := by
  rw [Matrix.add_mulVec, Matrix.smul_mulVec_assoc, Matrix.smul_mulVec_assoc,
    dotProduct_add, dotProduct_smul, dotProduct_smul, smul_eq_mul, smul_eq_mul]

/-- The LMI evaluator is affine: it commutes with affine combinations of
its argument. -/
lemma evaluate_affine_comb (L : LMI m n) (u v : Fin n → ℝ) {a b : ℝ}
    (hab : a + b = 1) :
    evaluate L (a • u + b • v) = a • evaluate L u + b • evaluate L v := by
  have h0 : a • L.A0 + b • L.A0 = L.A0 := by
    rw [← add_smul, hab, one_smul]
  simp only [evaluate, smul_add, Finset.smul_sum, smul_smul]
  have h1 : ∀ i : Fin n, (a • u + b • v) i • L.A i =
      (a * u i) • L.A i + (b * v i) • L.A i := by
    intro i
    simp only [Pi.add_apply, Pi.smul_apply, smul_eq_mul, add_smul]
  rw [Finset.sum_congr rfl fun i _ => h1 i, Finset.sum_add_distrib]
  conv_lhs => rw [← h0]
  abel

/-- The feasible region is convex. -/
lemma feasible_convex {L : LMI m n} {u v : Fin n → ℝ} (hu : feasible L u)
    (hv : feasible L v) {a b : ℝ} (ha : 0 ≤ a) (hb : 0 ≤ b) (hab : a + b = 1) :
    feasible L (a • u + b • v) := by
  refine posSemidef_of_quad ?_ fun x => ?_
  · rw [evaluate_affine_comb L u v hab]
    exact (isHermitian_smul_real hu.1 a).add (isHermitian_smul_real hv.1 b)
  · rw [evaluate_affine_comb L u v hab, quad_smul_add_smul]
    exact add_nonneg (mul_nonneg ha (psd_quad hu x)) (mul_nonneg hb (psd_quad hv x))

/-- A whole feasible ray makes the oracle's feasible set unbounded. -/
lemma not_bddAbove_of_feasible_ray {L : LMI m n} {q d : Fin n → ℝ}
    (hray : ∀ s : ℝ, 0 ≤ s → feasible L (q + s • d)) :
    ¬ BddAbove (curveFeasSet L q d 0) := by
  rintro ⟨ub, hub⟩
  have hmem : max ub 0 + 1 ∈ curveFeasSet L q d 0 := by
    have h0 : (0 : ℝ) ≤ max ub 0 := le_max_right _ _
    refine ⟨by linarith, fun u hu hus => ?_⟩
    rw [curvePos_line]
    exact hray u hu
  have h6 := hub hmem
  simp only [upperBounds, Set.mem_setOf_eq] at h6
  have h7 : ub ≤ max ub 0 := le_max_left _ _
  linarith

/-- Recession directions of the convex feasible region are base-point
independent: a feasible ray from `p` transfers to any feasible base point
`q`, by taking limits of convex combinations of `q` with far-away points
of the ray (the quadratic form of each limit is an affine function of the
interpolation parameter, so closedness follows from continuity). -/
lemma feasible_ray_transfer {L : LMI m n} (hL : wellFormed L) {p q d : Fin n → ℝ}
    (hq : feasible L q) (hray : ∀ s : ℝ, 0 ≤ s → feasible L (p + s • d)) :
    ∀ s : ℝ, 0 ≤ s → feasible L (q + s • d) := by
  intro s hs
  refine posSemidef_of_quad (evaluate_isHermitian hL _) fun x => ?_
  have key : ∀ l : ℝ, 0 < l → l ≤ 1 →
      feasible L (curvePos (q + s • d) (p - q) 0 l) := by
    intro l hl0 hl1
    have hpt : curvePos (q + s • d) (p - q) 0 l =
        (1 - l) • q + l • (p + (s / l) • d) := by
      rw [curvePos_line]
      funext i
      simp only [Pi.add_apply, Pi.smul_apply, Pi.sub_apply, smul_eq_mul]
      field_simp
      ring
    rw [hpt]
    exact feasible_convex hq (hray (s / l) (div_nonneg hs hl0.le))
      (by linarith) hl0.le (by ring)
  have hcont : Continuous fun t : ℝ =>
      x ⬝ᵥ (evaluate L (curvePos (q + s • d) (p - q) 0 (1 - t))) *ᵥ x :=
    (continuous_quad_curve L (q + s • d) (p - q) 0 x).comp
      (continuous_const.sub continuous_id)
  have h1 := nonneg_at_endpoint hcont zero_le_one
    (by simpa using psd_quad (key 1 one_pos (le_refl 1)) x)
    (fun t ht0 ht1 => psd_quad (key (1 - t) (by linarith) (by linarith)) x)
  simpa [curvePos_zero] using h1

/-- The unbounded sentinel transfers between feasible base points: if the
oracle from the strictly feasible `p` finds no boundary along `d`, neither
does the oracle from any other feasible point `q`. -/
lemma firstExit_none_transfer {L : LMI m n} (hL : wellFormed L) {p q d : Fin n → ℝ}
    (hp : strictlyFeasible L p) (hq : feasible L q)
    (hE : firstExit L p d = none) : firstExit L q d = none := by
  have hUnb := curveExit_none_iff.mp hE
  have hrayP : ∀ s : ℝ, 0 ≤ s → feasible L (p + s • d) := fun s hs =>
    (posDef_on_line_of_unbounded hp hUnb s hs).posSemidef
  rw [firstExit, curveExit_none_iff]
  exact not_bddAbove_of_feasible_ray (feasible_ray_transfer hL hq hrayP)

/-- Claim C7: the straight-line oracle returns the unbounded sentinel
exactly when no positive root of `det (A(p) + s · derivative(d)) = 0`
exists; the coefficient matrix of some coordinate direction being zero
makes the oracle along that axis unbounded; and the sentinel outcome is
the `UnboundedDirection` error, fatal to the sampling session: when the
oracle finds no boundary along a nonzero direction, preprocessing fails
with `UnboundedDirection` and the driver run through it returns that
error (no samples are produced). -/
theorem firstExit_unbounded_sentinel {L : LMI m n} {p d : Fin n → ℝ}
    (hL : wellFormed L) (hp : strictlyFeasible L p) :
    (firstExit L p d = none ↔
      ¬ ∃ s : ℝ, 0 < s ∧ (evaluate L p + s • derivative L d).det = 0) ∧
    (∀ i, L.A i = 0 → firstExit L p (Pi.single i 1) = none) ∧
    (d ≠ 0 → firstExit L p d = none →
      preproccess_spectrahedron L = .error SpecErr.UnboundedDirection ∧
      ∀ (env : DriverEnv n)
        (reflect : (Fin n → ℝ) → (Fin n → ℝ) → Fin n → ℝ) (accel : Fin n → ℝ)
        (fuel : ℕ) (vels : ℕ → Fin n → ℝ) (har : (Fin n → ℝ) → Fin n → ℝ)
        (nn mm N M wl wt : ℕ),
        opti_exp env ⟨L, reflect, accel, fuel, vels⟩ preproccess_spectrahedron
          har nn mm N M wl wt = .error SpecErr.UnboundedDirection) := by
  refine ⟨⟨fun h => firstExit_none_implies_no_root hp h,
    fun h => firstExit_none_of_no_root hL hp h⟩, fun i hAi => ?_, ?_⟩
  · refine firstExit_none_of_no_root hL hp ?_
    rintro ⟨s, hs, hdet⟩
    have hD : derivative L (Pi.single i 1) = 0 := by
      have h1 : ∀ j, (Pi.single i 1 : Fin n → ℝ) j • L.A j =
          if j = i then L.A j else 0 := by
        intro j
        rw [Pi.single_apply]
        by_cases hj : j = i <;> simp [hj]
      rw [derivative, Finset.sum_congr rfl fun j _ => h1 j]
      simp [hAi]
    rw [hD, smul_zero, add_zero] at hdet
    exact (Matrix.PosDef.det_pos hp).ne' hdet
  · intro hd hnone
    have hfeas : ∃ x, strictlyFeasible L x := ⟨p, hp⟩
    have htrans : firstExit L hfeas.choose d = none :=
      firstExit_none_transfer hL hp (strictFeas_feasible hfeas.choose_spec) hnone
    have hpre : preproccess_spectrahedron L = .error SpecErr.UnboundedDirection := by
      unfold preproccess_spectrahedron
      rw [dif_pos hfeas, if_pos ⟨d, hd, htrans⟩]
    refine ⟨hpre, ?_⟩
    intro env reflect accel fuel vels har nn mm N M wl wt
    have hWL : (⟨L, reflect, accel, fuel, vels⟩ : WalkerArgs m n).L = L := rfl
    unfold opti_exp
    rw [hWL, hpre]

/-- Feasibility invariant of the Boltzmann-HMC walker: starting from a
feasible point with a nonnegative time budget, the emitted point is
feasible — the walker only ever advances to the boundary point certified
by the oracle or to an interior point of the certified interval. -/
lemma HMC_point_feasible {L : LMI m n} (hL : wellFormed L)
    (reflect : (Fin n → ℝ) → (Fin n → ℝ) → Fin n → ℝ) (a : Fin n → ℝ) :
    ∀ (fuel : ℕ) (p v : Fin n → ℝ) (rem : ℝ)
      (s : BoundaryOracleBoltzmannHMCSettings), feasible L p → 0 ≤ rem →
      feasible L (HMC_boltzmann_reflections L reflect a fuel p v rem s).1 := by
  intro fuel
  induction fuel with
  | zero => intro p v rem s hp _; exact hp
  | succ k ih =>
    intro p v rem s hp hrem
    rw [HMC_boltzmann_reflections]
    cases hE : curveExit L p v a with
    | none =>
      simp only
      have hUnb := curveExit_none_iff.mp hE
      obtain ⟨τ, hτS, hτrem⟩ := not_bddAbove_iff.mp hUnb rem
      exact hτS.2 rem hrem hτrem.le
    | some te =>
      simp only
      by_cases hle : rem ≤ te
      · rw [if_pos hle]
        exact curveExit_feasible_on hL hp hE rem hrem hle
      · rw [if_neg hle]
        push_neg at hle
        have hte := curveExit_nonneg hE
        have hbdry : feasible L (curvePos p v a te) :=
          curveExit_feasible_on hL hp hE te hte (le_refl te)
        exact ih _ _ (rem - te) _ hbdry (by linarith)

/-- The walker leaves the settings struct unchanged when its first-step
flag is already cleared. -/
lemma HMC_settings_fixed {L : LMI m n}
    {reflect : (Fin n → ℝ) → (Fin n → ℝ) → Fin n → ℝ} {a : Fin n → ℝ} :
    ∀ (fuel : ℕ) (p v : Fin n → ℝ) (rem : ℝ)
      (s : BoundaryOracleBoltzmannHMCSettings), s.first = false →
      (HMC_boltzmann_reflections L reflect a fuel p v rem s).2 = s := by
  intro fuel
  induction fuel with
  | zero => intro p v rem s _; rfl
  | succ k ih =>
    intro p v rem s hs
    have hset : (⟨false, s.epsilon⟩ : BoundaryOracleBoltzmannHMCSettings) = s := by
      cases s
      simp_all
    rw [HMC_boltzmann_reflections]
    cases hE : curveExit L p v a with
    | none => simpa using hset
    | some te =>
      simp only
      by_cases hle : rem ≤ te
      · rw [if_pos hle]
        simpa using hset
      · rw [if_neg hle, hset]
        exact ih _ _ _ _ hs

/-- A walker invocation that is allowed at least one sub-interval clears
the first-step flag and keeps the epsilon. -/
lemma HMC_settings_clears {L : LMI m n}
    {reflect : (Fin n → ℝ) → (Fin n → ℝ) → Fin n → ℝ} {a : Fin n → ℝ}
    (fuel : ℕ) (p v : Fin n → ℝ) (rem : ℝ)
    (s : BoundaryOracleBoltzmannHMCSettings) :
    (HMC_boltzmann_reflections L reflect a (fuel + 1) p v rem s).2 =
      ⟨false, s.epsilon⟩ := by
  rw [HMC_boltzmann_reflections]
  cases hE : curveExit L p v a with
  | none => simp
  | some te =>
    simp only
    by_cases hle : rem ≤ te
    · rw [if_pos hle]
    · rw [if_neg hle]
      exact HMC_settings_fixed fuel _ _ _ _ rfl

/-- Invariants are preserved by function iteration. -/
lemma iterate_preserve {α : Type*} {f : α → α} {P : α → Prop}
    (hf : ∀ x, P x → P (f x)) : ∀ (k : ℕ) (x : α), P x → P (f^[k] x) := by
  intro k
  induction k with
  | zero => intro x hx; exact hx
  | succ j ih =>
    intro x hx
    rw [Function.iterate_succ_apply]
    exact ih _ (hf x hx)

lemma trace_grows_doInvocation (W : WalkerArgs m n) (T : ℝ) (st : DriverState n) :
    ∃ l, (doInvocation W T st).trace = st.trace ++ l :=
  ⟨_, rfl⟩

lemma trace_grows_iterate {f : DriverState n → DriverState n}
    (hf : ∀ st, ∃ l, (f st).trace = st.trace ++ l) :
    ∀ (k : ℕ) (st : DriverState n), ∃ l, (f^[k] st).trace = st.trace ++ l := by
  intro k
  induction k with
  | zero => intro st; exact ⟨[], by simp⟩
  | succ j ih =>
    intro st
    rw [Function.iterate_succ_apply]
    obtain ⟨l1, h1⟩ := hf st
    obtain ⟨l2, h2⟩ := ih (f st)
    exact ⟨l1 ++ l2, by rw [h2, h1, List.append_assoc]⟩

lemma trace_grows_sampleStep (W : WalkerArgs m n) (T : ℝ) (wl : ℕ)
    (st : DriverState n) : ∃ l, (sampleStep W T wl st).trace = st.trace ++ l := by
  have h1 : (sampleStep W T wl st).trace = ((doInvocation W T)^[wl] st).trace := rfl
  rw [h1]
  exact trace_grows_iterate (trace_grows_doInvocation W T) wl st

lemma SettingsChained.snoc {s0 s1 : BoundaryOracleBoltzmannHMCSettings}
    {l : List TraceEntry} (h : SettingsChained s0 l s1) (e : TraceEntry)
    (he : e.atStart = s1) : SettingsChained s0 (l ++ [e]) e.atEnd := by
  induction h with
  | nil s2 => exact .cons _ e [] e.atEnd he (.nil _)
  | cons s2 e' l' sF h1 h2 ih => exact .cons _ e' _ _ h1 (ih he)

/-! ## Theorems for the claims -/

/-- Claim C8: for every spectrahedron, starting point and direction, a
Boltzmann-HMC walk invocation with total simulated time equal to `0`
returns the starting point unchanged. -/
theorem HMC_zero_time_returns_start (L : LMI m n)
    (reflect : (Fin n → ℝ) → (Fin n → ℝ) → Fin n → ℝ) (a : Fin n → ℝ)
    (fuel : ℕ) (p v : Fin n → ℝ) (s : BoundaryOracleBoltzmannHMCSettings) :
    (HMC_boltzmann_reflections L reflect a fuel p v 0 s).1 = p := by
  cases fuel with
  | zero => rfl
  | succ k =>
    rw [HMC_boltzmann_reflections]
    cases hE : curveExit L p v a with
    | none => simp [curvePos_zero]
    | some te =>
      simp only
      rw [if_pos (curveExit_nonneg hE)]
      simp [curvePos_zero]

/-- Claim C9: the walk-configuration value is built (line 67) from the
diameter-estimate and inner-ball variables before either has been assigned
by the program (the inner-ball computation is commented out), so the total
simulated time `T = 2.0 * var.diameter` (line 88) is defined exactly when
preprocessing has overwritten the diameter field: from the unassigned
initial field it is undefined, and from an overwritten value `r` it is
`2 * r`. -/
theorem vars_diameter_unassigned_T_defined_iff_overwritten :
    varsInit.diameter = none ∧ varsInit.innerBallRadius = none ∧
    driverT varsInit.diameter = none ∧
    ∀ r : ℝ, driverT (some r) = some (2 * r) :=
  ⟨rfl, rfl, rfl, fun _ => rfl⟩

/-- Claim C10: the driver's result does not depend on its declared
sample-count parameters `N` and `M`: with every other input held fixed
(environment, problem, random stream, walk length, walk type), `opti_exp`
returns the same value for any two values of `N` and any two of `M` —
the inner loop bound reads the ambient `N2` and the returned value is the
ambient `Ratios`, while `M` is never read. -/
theorem opti_exp_independent_of_N_M (env : DriverEnv n) (W : WalkerArgs m n)
    (preFn : LMI m n → Except SpecErr (PreOut n)) (har : (Fin n → ℝ) → Fin n → ℝ)
    (nn mm walkLength walkType N M N' M' : ℕ) :
    opti_exp env W preFn har nn mm N M walkLength walkType =
      opti_exp env W preFn har nn mm N' M' walkLength walkType := rfl

/-- Claim C3 (code bug): whatever the sampling loops accumulate, the value
the driver returns is the ambient `Ratios` binding (line 107) with
preprocessing errors propagated — it is never the accumulated `randPoints`
sample list. -/
theorem opti_exp_returns_ambient_Ratios (env : DriverEnv n) (W : WalkerArgs m n)
    (preFn : LMI m n → Except SpecErr (PreOut n)) (har : (Fin n → ℝ) → Fin n → ℝ)
    (nn mm N M walkLength walkType : ℕ) :
    opti_exp env W preFn har nn mm N M walkLength walkType =
      (preFn W.L).map (fun _ => env.Ratios) := by
  unfold opti_exp
  cases preFn W.L <;> rfl

/-- Claim C2: starting from the driver's initial point (the origin set at
line 75), provided that point is feasible and the diameter estimate is
nonnegative, the walker's current point stays feasible and every point the
driver appends to `randPoints` after a Boltzmann-HMC walk invocation is
feasible (`A(point) ⪰ -tolerance` at exact arithmetic). -/
theorem driver_samples_feasible {W : WalkerArgs m n} {N2 wl : ℕ} {pre : PreOut n}
    (hL : wellFormed W.L) (h0 : feasible W.L (initState n).p)
    (hdiam : 0 ≤ pre.diameter) :
    feasible W.L (driverRun W N2 wl pre).p ∧
      ∀ q ∈ (driverRun W N2 wl pre).samples, feasible W.L q := by
  have hT : (0 : ℝ) ≤ 2 * pre.diameter := by linarith
  have hInv : ∀ st : DriverState n,
      (feasible W.L st.p ∧ ∀ q ∈ st.samples, feasible W.L q) →
      (feasible W.L (doInvocation W (2 * pre.diameter) st).p ∧
        ∀ q ∈ (doInvocation W (2 * pre.diameter) st).samples, feasible W.L q) := by
    intro st hst
    exact ⟨HMC_point_feasible hL W.reflect W.accel W.fuel st.p (W.vels st.rngIdx)
      _ st.settings hst.1 hT, hst.2⟩
  have hSample : ∀ st : DriverState n,
      (feasible W.L st.p ∧ ∀ q ∈ st.samples, feasible W.L q) →
      (feasible W.L (sampleStep W (2 * pre.diameter) wl st).p ∧
        ∀ q ∈ (sampleStep W (2 * pre.diameter) wl st).samples, feasible W.L q) := by
    intro st hst
    have h2 := iterate_preserve hInv wl st hst
    refine ⟨h2.1, fun q hq => ?_⟩
    have hq' : q ∈ ((doInvocation W (2 * pre.diameter))^[wl] st).samples ++
        [((doInvocation W (2 * pre.diameter))^[wl] st).p] := hq
    rcases List.mem_append.mp hq' with h | h
    · exact h2.2 q h
    · rw [List.mem_singleton.mp h]
      exact h2.1
  have hInit : feasible W.L (initState n).p ∧
      ∀ q ∈ (initState n).samples, feasible W.L q := by
    refine ⟨h0, fun q hq => ?_⟩
    simp [initState] at hq
  exact iterate_preserve (fun st hst => iterate_preserve hSample N2 st hst) 5 _ hInit

/-- Claim C5: the total-simulated-time argument of every Boltzmann-HMC
walk invocation performed by the driver equals `2.0` times the diameter
estimate held in the walk configuration after preprocessing (line 88):
the time components of the invocation trace are constantly
`2 * pre.diameter`. -/
theorem hmc_invocation_time_args {W : WalkerArgs m n} (N2 wl : ℕ) (pre : PreOut n) :
    (driverRun W N2 wl pre).trace.map TraceEntry.timeArg =
      List.replicate (driverRun W N2 wl pre).trace.length (2 * pre.diameter) := by
  have hInv : ∀ st : DriverState n,
      (st.trace.map TraceEntry.timeArg =
        List.replicate st.trace.length (2 * pre.diameter)) →
      ((doInvocation W (2 * pre.diameter) st).trace.map TraceEntry.timeArg =
        List.replicate (doInvocation W (2 * pre.diameter) st).trace.length
          (2 * pre.diameter)) := by
    intro st hst
    have h1 : (doInvocation W (2 * pre.diameter) st).trace = st.trace ++
        [⟨st.settings, (HMC_boltzmann_reflections W.L W.reflect W.accel W.fuel
          st.p (W.vels st.rngIdx) (2 * pre.diameter) st.settings).2,
          2 * pre.diameter⟩] := rfl
    rw [h1, List.map_append, List.length_append, hst]
    simp [List.replicate_add]
  have hSample : ∀ st : DriverState n,
      (st.trace.map TraceEntry.timeArg =
        List.replicate st.trace.length (2 * pre.diameter)) →
      ((sampleStep W (2 * pre.diameter) wl st).trace.map TraceEntry.timeArg =
        List.replicate (sampleStep W (2 * pre.diameter) wl st).trace.length
          (2 * pre.diameter)) :=
    fun st hst => iterate_preserve hInv wl st hst
  exact iterate_preserve (fun st hst => iterate_preserve hSample N2 st hst) 5 _ rfl

/-- Claim C4 (amended): the first-step flag holds in the settings value
the driver constructs (lines 77-79), and that one settings struct is
shared by mutable reference across all walk invocations: the invocation
trace is chained, i.e. the first invocation starts with the constructed
settings and every later invocation starts with exactly the settings state
the previous invocation ended with — nothing resets the flag between
invocations. -/
theorem settings2_shared_across_invocations (W : WalkerArgs m n) (N2 wl : ℕ)
    (pre : PreOut n) :
    (initState n).settings.first = true ∧
    SettingsChained (initState n).settings (driverRun W N2 wl pre).trace
      (driverRun W N2 wl pre).settings := by
  refine ⟨rfl, ?_⟩
  have hInv : ∀ st : DriverState n,
      SettingsChained (initState n).settings st.trace st.settings →
      SettingsChained (initState n).settings
        (doInvocation W (2 * pre.diameter) st).trace
        (doInvocation W (2 * pre.diameter) st).settings := by
    intro st hst
    exact hst.snoc _ rfl
  have hSample : ∀ st : DriverState n,
      SettingsChained (initState n).settings st.trace st.settings →
      SettingsChained (initState n).settings
        (sampleStep W (2 * pre.diameter) wl st).trace
        (sampleStep W (2 * pre.diameter) wl st).settings :=
    fun st hst => iterate_preserve hInv wl st hst
  exact iterate_preserve (fun st hst => iterate_preserve hSample N2 st hst) 5 _
    (.nil _)

/-- Claim C6: preprocessing locates an interior point via a feasibility
search before sampling begins — on feasible instances satisfying the
spec's standing boundedness assumption (the oracle finds a boundary along
every nonzero direction from every interior point) it succeeds with a
strictly feasible point, and when no strictly feasible point exists it
fails with `Infeasible`, which is fatal to the sampling session: the
driver returns the error and no samples are produced. -/
theorem preproccess_interior_point_or_infeasible :
    (∀ (L : LMI m n), (∃ x, strictlyFeasible L x) →
      (∀ (x d : Fin n → ℝ), strictlyFeasible L x → d ≠ 0 →
        firstExit L x d ≠ none) →
      ∃ out, preproccess_spectrahedron L = .ok out ∧ strictlyFeasible L out.point) ∧
    ∀ (env : DriverEnv n) (W : WalkerArgs m n)
      (har : (Fin n → ℝ) → Fin n → ℝ) (nn mm N M wl wt : ℕ),
      (¬ ∃ x, strictlyFeasible W.L x) →
      preproccess_spectrahedron W.L = .error SpecErr.Infeasible ∧
      opti_exp env W preproccess_spectrahedron har nn mm N M wl wt =
        .error SpecErr.Infeasible := by
  constructor
  · intro L h hbounded
    refine ⟨⟨h.choose, innerRadiusAt L h.choose, bodyDiameter L⟩, ?_, h.choose_spec⟩
    unfold preproccess_spectrahedron
    have hno : ¬ ∃ d, d ≠ 0 ∧ firstExit L h.choose d = none := by
      rintro ⟨d, hd, hnone⟩
      exact hbounded h.choose d h.choose_spec hd hnone
    rw [dif_pos h, if_neg hno]
  · intro env W har nn mm N M wl wt h
    have h1 : preproccess_spectrahedron W.L = .error SpecErr.Infeasible := by
      unfold preproccess_spectrahedron
      rw [dif_neg h]
    refine ⟨h1, ?_⟩
    unfold opti_exp
    rw [h1]

/-! ## Concrete-instance lemmas for the witnesses -/

lemma evaluate_exampleLMI (x : Fin 1 → ℝ) :
    evaluate exampleLMI x = Matrix.diagonal fun _ => 1 - x 0 := by
  have h1 : (1 : Matrix (Fin 1) (Fin 1) ℝ) = Matrix.diagonal fun _ => 1 :=
    (Matrix.diagonal_one).symm
  rw [evaluate, exampleLMI, Fin.sum_univ_one, h1]
  ext i j
  fin_cases i
  fin_cases j
  simp [Matrix.diagonal]
  ring

lemma feasible_exampleLMI_iff (x : Fin 1 → ℝ) :
    feasible exampleLMI x ↔ x 0 ≤ 1 := by
  rw [feasible, evaluate_exampleLMI, Matrix.posSemidef_diagonal_iff]
  constructor
  · intro h
    have := h 0
    linarith
  · intro h i
    linarith

lemma exampleLMI_wellFormed : wellFormed exampleLMI :=
  ⟨Matrix.isHermitian_one, fun _ => Matrix.isHermitian_diagonal _⟩

lemma exampleLMI_strictFeas : strictlyFeasible exampleLMI fun _ => 0 := by
  rw [strictlyFeasible, evaluate_exampleLMI]
  refine Matrix.posDef_diagonal_iff.mpr fun i => ?_
  norm_num

lemma exampleLMI_feasSet :
    curveFeasSet exampleLMI (fun _ => 0) (fun _ => 1) 0 = Icc 0 1 := by
  ext s
  simp only [curveFeasSet, Set.mem_setOf_eq, Set.mem_Icc]
  constructor
  · rintro ⟨hs, h⟩
    refine ⟨hs, ?_⟩
    have h1 := h s hs (le_refl s)
    rw [curvePos_line, feasible_exampleLMI_iff] at h1
    simpa using h1
  · rintro ⟨hs, hs1⟩
    refine ⟨hs, fun u hu hus => ?_⟩
    rw [curvePos_line, feasible_exampleLMI_iff]
    simp only [Pi.add_apply, Pi.smul_apply, smul_eq_mul]
    linarith

lemma firstExit_exampleLMI :
    firstExit exampleLMI (fun _ => 0) (fun _ => 1) = some 1 := by
  rw [firstExit]
  unfold curveExit
  rw [exampleLMI_feasSet, if_pos bddAbove_Icc, csSup_Icc zero_le_one]

lemma evaluate_zeroDirLMI (x : Fin 1 → ℝ) : evaluate zeroDirLMI x = 1 := by
  simp [evaluate, zeroDirLMI]

lemma zeroDirLMI_wellFormed : wellFormed zeroDirLMI :=
  ⟨Matrix.isHermitian_one, fun _ => Matrix.isHermitian_zero⟩

lemma zeroDirLMI_strictFeas : strictlyFeasible zeroDirLMI fun _ => 0 := by
  rw [strictlyFeasible, evaluate_zeroDirLMI]
  exact Matrix.PosDef.one

lemma infeasibleLMI_no_interior : ¬ ∃ x, strictlyFeasible infeasibleLMI x := by
  rintro ⟨x, hx⟩
  have h1 : evaluate infeasibleLMI x = Matrix.diagonal fun _ => -1 := by
    simp [evaluate, infeasibleLMI]
  rw [strictlyFeasible, h1] at hx
  have h2 := Matrix.posDef_diagonal_iff.mp hx 0
  norm_num at h2

/-! ## Witnesses and counterexample -/

/-- Witness for claim C1, on the interval body `A(x) = [1 - x]` queried
from the origin along the positive axis: the oracle returns `1`, and the
contract conclusions hold there. -/
theorem firstExit_boundary_contract_witness :
    0 ≤ (1 : ℝ) ∧
      (∀ s, 0 ≤ s → s ≤ (1 : ℝ) →
        feasible exampleLMI ((fun _ => 0) + s • (fun _ => 1 : Fin 1 → ℝ))) ∧
      (evaluate exampleLMI
        ((fun _ => 0) + (1 : ℝ) • (fun _ => 1 : Fin 1 → ℝ))).det = 0 :=
  firstExit_boundary_contract exampleLMI_wellFormed exampleLMI_strictFeas
    firstExit_exampleLMI

/-- Witness for claim C7, on the degenerate body `A(x) = [1]` whose only
coordinate matrix is zero: the oracle along that axis returns the
unbounded sentinel, preprocessing fails with `UnboundedDirection`, and the
sampling session run through it returns that error. -/
theorem firstExit_unbounded_sentinel_witness :
    firstExit zeroDirLMI (fun _ => 0) (Pi.single 0 1) = none ∧
      preproccess_spectrahedron zeroDirLMI = .error SpecErr.UnboundedDirection ∧
      opti_exp exampleEnv ⟨zeroDirLMI, fun _ v => v, fun _ => 0, 1, fun _ _ => 0⟩
        preproccess_spectrahedron (fun p => p) 1 1 1 1 1 1 =
          .error SpecErr.UnboundedDirection := by
  have hthm := firstExit_unbounded_sentinel (d := Pi.single 0 1)
    zeroDirLMI_wellFormed zeroDirLMI_strictFeas
  have hnone : firstExit zeroDirLMI (fun _ => 0) (Pi.single 0 1) = none :=
    hthm.2.1 0 rfl
  have hd : (Pi.single 0 1 : Fin 1 → ℝ) ≠ 0 := by
    intro h
    have h0 := congrFun h 0
    simp at h0
  have hfatal := hthm.2.2 hd hnone
  exact ⟨hnone, hfatal.1, hfatal.2 exampleEnv (fun _ v => v) (fun _ => 0) 1
    (fun _ _ => 0) (fun p => p) 1 1 1 1 1 1⟩

/-- Witness for claim C2: a concrete driver run over the unbounded
one-dimensional body keeps the current point and all appended samples
feasible. -/
theorem driver_samples_feasible_witness :
    feasible exampleWalkerArgs.L (driverRun exampleWalkerArgs 1 2 examplePreOut).p ∧
      ∀ q ∈ (driverRun exampleWalkerArgs 1 2 examplePreOut).samples,
        feasible exampleWalkerArgs.L q :=
  driver_samples_feasible zeroDirLMI_wellFormed
    (by rw [show feasible exampleWalkerArgs.L (initState 1).p =
        ((evaluate zeroDirLMI fun _ => 0).PosSemidef) from rfl, evaluate_zeroDirLMI]
        exact Matrix.PosDef.one.posSemidef)
    (by norm_num [examplePreOut])

/-- Witness for claim C6: preprocessing on the infeasible LMI `[-1]` fails
with `Infeasible` and the driver produces no samples. -/
theorem preproccess_infeasible_witness :
    preproccess_spectrahedron infeasibleWalkerArgs.L = .error SpecErr.Infeasible ∧
      opti_exp exampleEnv infeasibleWalkerArgs preproccess_spectrahedron
        (fun p => p) 1 1 1 1 1 1 = .error SpecErr.Infeasible :=
  preproccess_interior_point_or_infeasible.2 exampleEnv infeasibleWalkerArgs
    (fun p => p) 1 1 1 1 1 1 infeasibleLMI_no_interior

lemma doInvocation_trace_entry (W : WalkerArgs m n) (T : ℝ) (st : DriverState n)
    (k : ℕ) (hf : W.fuel = k + 1) :
    (doInvocation W T st).trace =
      st.trace ++ [⟨st.settings, ⟨false, st.settings.epsilon⟩, T⟩] := by
  have h1 : (doInvocation W T st).trace = st.trace ++
      [⟨st.settings, (HMC_boltzmann_reflections W.L W.reflect W.accel W.fuel st.p
        (W.vels st.rngIdx) T st.settings).2, T⟩] := rfl
  rw [h1, hf, HMC_settings_clears]

lemma doInvocation_settings_clears (W : WalkerArgs m n) (T : ℝ) (st : DriverState n)
    (k : ℕ) (hf : W.fuel = k + 1) :
    (doInvocation W T st).settings = ⟨false, st.settings.epsilon⟩ := by
  have h1 : (doInvocation W T st).settings =
      (HMC_boltzmann_reflections W.L W.reflect W.accel W.fuel st.p
        (W.vels st.rngIdx) T st.settings).2 := rfl
  rw [h1, hf, HMC_settings_clears]

/-- Counterexample for claim C4: in the concrete driver run over the
unbounded one-dimensional body with two walker invocations per sample, it
is not the case that the first-step flag holds at the start of every walk
invocation — the walker clears the shared flag during the first invocation
and nothing resets it before the second. -/
theorem first_flag_false_at_second_invocation :
    ¬ ∀ e ∈ (driverRun exampleWalkerArgs 1 2 examplePreOut).trace,
        e.atStart.first = true := by
  intro hAll
  have hf : exampleWalkerArgs.fuel = 0 + 1 := rfl
  set T : ℝ := 2 * examplePreOut.diameter with hT
  have h1 : (doInvocation exampleWalkerArgs T (initState 1)).trace =
      [⟨⟨true, 1 / 10000⟩, ⟨false, 1 / 10000⟩, T⟩] := by
    rw [doInvocation_trace_entry exampleWalkerArgs T _ 0 hf]
    rfl
  have h1s : (doInvocation exampleWalkerArgs T (initState 1)).settings =
      ⟨false, 1 / 10000⟩ := by
    rw [doInvocation_settings_clears exampleWalkerArgs T _ 0 hf]
    rfl
  have h2 : ((doInvocation exampleWalkerArgs T)^[2] (initState 1)).trace =
      [⟨⟨true, 1 / 10000⟩, ⟨false, 1 / 10000⟩, T⟩,
        ⟨⟨false, 1 / 10000⟩, ⟨false, 1 / 10000⟩, T⟩] := by
    have e1 : (doInvocation exampleWalkerArgs T)^[2] (initState 1) =
        doInvocation exampleWalkerArgs T
          (doInvocation exampleWalkerArgs T (initState 1)) := by
      rw [show (2 : ℕ) = 1 + 1 from rfl, Function.iterate_succ_apply',
        Function.iterate_one]
    rw [e1, doInvocation_trace_entry exampleWalkerArgs T _ 0 hf, h1, h1s]
    rfl
  have h3 : (sampleStep exampleWalkerArgs T 2 (initState 1)).trace =
      ((doInvocation exampleWalkerArgs T)^[2] (initState 1)).trace := rfl
  obtain ⟨l, hl⟩ := trace_grows_iterate
    (fun st => trace_grows_sampleStep exampleWalkerArgs T 2 st) 4
    (sampleStep exampleWalkerArgs T 2 (initState 1))
  have h4 : (driverRun exampleWalkerArgs 1 2 examplePreOut).trace =
      ((sampleStep exampleWalkerArgs T 2)^[4]
        (sampleStep exampleWalkerArgs T 2 (initState 1))).trace := by
    have h5 : driverRun exampleWalkerArgs 1 2 examplePreOut =
        (sampleStep exampleWalkerArgs T 2)^[4]
          (sampleStep exampleWalkerArgs T 2 (initState 1)) := by
      show ((sampleStep exampleWalkerArgs T 2)^[1])^[5] (initState 1) = _
      rw [Function.iterate_one, show (5 : ℕ) = 4 + 1 from rfl,
        Function.iterate_succ_apply]
    rw [h5]
  have hmem : (⟨⟨false, 1 / 10000⟩, ⟨false, 1 / 10000⟩, T⟩ : TraceEntry) ∈
      (driverRun exampleWalkerArgs 1 2 examplePreOut).trace := by
    rw [h4, hl, h3, h2]
    simp
  have hfalse := hAll _ hmem
  simp at hfalse
